import Mathlib

/-!
# Shallow embedding of the blocked bloom filter (`bloom/bloom.go`)

The filter is a slice of `uint64` words, modelled as `List ℕ` whose
elements stay below `2 ^ 64` (every operation only ORs 64-bit masks into
64-bit words).  Machine arithmetic is modelled on `ℕ` with explicit
`% 2 ^ 32` where the Go code computes in `uint32`.  Go run-time panics
(index out of range, integer division by zero, `make` with a negative
length) are modelled by `Option`/`Except` results: `none` / `.error`
means the call panics.  Sequential (single-caller) semantics: the
compare-and-swap retry loop of `atomicSetBits` always succeeds on the
first attempt, i.e. it reads the word and stores the OR of the word and
the mask, returning the old value.

`Len` uses `float64` in Go; it is embedded over `EReal` (extended
reals): IEEE `math.Log1p(-1)` is exactly `-Inf` (modelled as `⊥`),
adding any finite value to `-Inf` stays `-Inf`, and the final
`int(...)` conversion truncates toward zero.
-/

namespace Bloom

/-- `2 ^ 32`, the modulus of Go's `uint32` arithmetic. -/
def U32 : ℕ := 4294967296

/-- A bloom filter: a slice of `uint64` words. -/
abbrev Filter := List ℕ

/-- `splithash(h) = (uint32(h), uint32(h >> 32))`. -/
def splithash (x : ℕ) : ℕ × ℕ := (x % U32, x / 2 ^ 32 % U32)

/-- `(h0 % n) &^ 7`: the block-aligned base word index (low 3 bits cleared). -/
def sectorBase (h0 n : ℕ) : ℕ := h0 % n / 8 * 8

/-- `(i*h1) >> 31` in `uint32` arithmetic: the sector parity bit. -/
def parity (i h1 : ℕ) : ℕ := i * h1 % U32 / 2 ^ 31

/-- The four sector word indices of `func sectors`.  All additions are
`uint32` additions, hence the `% U32`.  (When `n = 0` the Go code panics
with a division by zero; callers guard for that before calling.) -/
def sectors (h0 h1 n : ℕ) : ℕ × ℕ × ℕ × ℕ :=
  ((sectorBase h0 n + 0 + parity 1 h1) % U32,
   (sectorBase h0 n + 2 + parity 2 h1) % U32,
   (sectorBase h0 n + 4 + parity 3 h1) % U32,
   (sectorBase h0 n + 6 + parity 4 h1) % U32)

/-- `((h0 + i*h1) >> 16) & 63` in `uint32` arithmetic. -/
def bitOffset (h0 h1 i : ℕ) : ℕ := (h0 + i * h1) % U32 / 2 ^ 16 % 64

/-- The four 2-bit-at-most masks of `func bitmasks`:
`z |= 1 << offset` twice per mask. -/
def bitmasks (h0 h1 : ℕ) : ℕ × ℕ × ℕ × ℕ :=
  (2 ^ bitOffset h0 h1 1 ||| 2 ^ bitOffset h0 h1 2,
   2 ^ bitOffset h0 h1 3 ||| 2 ^ bitOffset h0 h1 4,
   2 ^ bitOffset h0 h1 5 ||| 2 ^ bitOffset h0 h1 6,
   2 ^ bitOffset h0 h1 7 ||| 2 ^ bitOffset h0 h1 8)

/-- `Filter.atomicSetBits`, sequential semantics: return the old word and
the filter with `old | z` stored at `s`.  Out-of-range `s` panics
(`none`).  (The CAS loop's no-write short-circuit stores the identical
value, so the state is the same either way.) -/
def Filter.atomicSetBits (f : Filter) (s z : ℕ) : Option (ℕ × Filter) :=
  (f[s]?).map fun old => (old, f.set s (old ||| z))

/-- `Filter.Add`: OR each of the four masks into its sector word.
`none` models a panic (division by zero when `uint32(len(f)) = 0`, or an
out-of-range sector index). -/
def Filter.Add (f : Filter) (x : ℕ) : Option Filter :=
  let h0 := (splithash x).1
  let h1 := (splithash x).2
  let n := f.length % U32
  if n = 0 then none else
  let s := sectors h0 h1 n
  let z := bitmasks h0 h1
  (f.atomicSetBits s.1 z.1).bind fun p0 =>
  (p0.2.atomicSetBits s.2.1 z.2.1).bind fun p1 =>
  (p1.2.atomicSetBits s.2.2.1 z.2.2.1).bind fun p2 =>
  (p2.2.atomicSetBits s.2.2.2 z.2.2.2).map fun p3 => p3.2

/-- `Filter.Test`: load the four sector words and check every mask. -/
def Filter.Test (f : Filter) (x : ℕ) : Option Bool :=
  let h0 := (splithash x).1
  let h1 := (splithash x).2
  let n := f.length % U32
  if n = 0 then none else
  let s := sectors h0 h1 n
  let z := bitmasks h0 h1
  (f[s.1]?).bind fun m0 =>
  (f[s.2.1]?).bind fun m1 =>
  (f[s.2.2.1]?).bind fun m2 =>
  (f[s.2.2.2]?).map fun m3 =>
    decide (m0 &&& z.1 = z.1 ∧ m1 &&& z.2.1 = z.2.1 ∧
      m2 &&& z.2.2.1 = z.2.2.1 ∧ m3 &&& z.2.2.2 = z.2.2.2)

/-- `Filter.TestAndAdd`: the four atomic ORs of `Add`, keeping each
word's pre-update value; returns whether all pre-update values already
satisfied their masks, together with the updated filter. -/
def Filter.TestAndAdd (f : Filter) (x : ℕ) : Option (Bool × Filter) :=
  let h0 := (splithash x).1
  let h1 := (splithash x).2
  let n := f.length % U32
  if n = 0 then none else
  let s := sectors h0 h1 n
  let z := bitmasks h0 h1
  (f.atomicSetBits s.1 z.1).bind fun p0 =>
  (p0.2.atomicSetBits s.2.1 z.2.1).bind fun p1 =>
  (p1.2.atomicSetBits s.2.2.1 z.2.2.1).bind fun p2 =>
  (p2.2.atomicSetBits s.2.2.2 z.2.2.2).map fun p3 =>
    (decide (p0.1 &&& z.1 = z.1 ∧ p1.1 &&& z.2.1 = z.2.1 ∧
       p2.1 &&& z.2.2.1 = z.2.2.1 ∧ p3.1 &&& z.2.2.2 = z.2.2.2), p3.2)

/-- `Filter.Bits`: `len(f) * 64`. -/
def Filter.Bits (f : Filter) : ℕ := f.length * 64

/-- `Filter.Empty`: every word is zero. -/
def Filter.Empty (f : Filter) : Bool := f.all fun w => w == 0

/-- `Filter.Equal`: equal lengths and wordwise equal. -/
def Filter.Equal (f g : Filter) : Bool :=
  f.length == g.length &&
    ((List.range f.length).all fun i => f.getD i 0 == g.getD i 0)

/-- `Filter.Reset`: store `0` into every word. -/
def Filter.Reset (f : Filter) : Filter := f.map fun _ => 0

/-- Pure state transformer of one `atomicSetBits` call (defined whenever
`s` is in range, which every caller below establishes). -/
def setBitsP (f : Filter) (s z : ℕ) : Filter := f.set s (f.getD s 0 ||| z)

/-- The `UnionWith` loop: `for i := range f { f.atomicSetBits(uint32(i), g[i]) }`.
`uint32(i)` is `i % U32`; the store index is therefore always in range
(it is below `min(len f, U32)`), so the loop itself never panics. -/
def unionLoop (f g : Filter) : Filter :=
  (List.range f.length).foldl (fun acc i => setBitsP acc (i % U32) (g.getD i 0)) f

/-- `Filter.UnionWith`: panics (`.error`) when the word-lengths differ.
The panic happens before any word is written, so the error value carries
the untouched receiver. -/
def Filter.UnionWith (f g : Filter) : Except Filter Filter :=
  if f.length = g.length then Except.ok (unionLoop f g) else Except.error f

/-- Two's-complement wrap of Go `int64` arithmetic. -/
def wrap64 (z : ℤ) : ℤ := (z + 2 ^ 63) % 2 ^ 64 - 2 ^ 63

/-- `New(m)`: `make([]uint64, ((m+511)/512)*8)`.  Go `/` on `int` is
truncated division (`Int.tdiv`); `make` with a negative length panics
(`none`).  (The multiplication by 8 cannot overflow after the division
by 512, so only the addition is wrapped.) -/
def New (m : ℤ) : Option Filter :=
  let words := (wrap64 (m + 511)).tdiv 512 * 8
  if words < 0 then none else some (List.replicate words.toNat 0)

/-- The state produced by a (non-panicking) `Add` call, as a pure function. -/
def Filter.addP (f : Filter) (x : ℕ) : Filter :=
  let h0 := (splithash x).1
  let h1 := (splithash x).2
  let n := f.length % U32
  let s := sectors h0 h1 n
  let z := bitmasks h0 h1
  setBitsP (setBitsP (setBitsP (setBitsP f s.1 z.1) s.2.1 z.2.1)
    s.2.2.1 z.2.2.1) s.2.2.2 z.2.2.2

/-- The boolean produced by a (non-panicking) `Test` call, as a pure function. -/
def Filter.testP (f : Filter) (x : ℕ) : Bool :=
  let h0 := (splithash x).1
  let h1 := (splithash x).2
  let n := f.length % U32
  let s := sectors h0 h1 n
  let z := bitmasks h0 h1
  decide (f.getD s.1 0 &&& z.1 = z.1 ∧ f.getD s.2.1 0 &&& z.2.1 = z.2.1 ∧
    f.getD s.2.2.1 0 &&& z.2.2.1 = z.2.2.1 ∧ f.getD s.2.2.2 0 &&& z.2.2.2 = z.2.2.2)

/-- `k` successive `Add` calls of the same key. -/
def Filter.addTimes (f : Filter) (x : ℕ) : ℕ → Option Filter
  | 0 => some f
  | k + 1 => (f.Add x).bind fun g => Filter.addTimes g x k

/-- `bits.OnesCount64`: population count of a 64-bit word. -/
def popcount64 (w : ℕ) : ℕ := ((Finset.range 64).filter fun i => w.testBit i = true).card

/-- Per-block population counts of the `Len` loop: the loop reads the
filter in chunks of 8 words (`f[i+0] .. f[i+7]` for `i = 0, 8, ...`) and
sums their population counts; a trailing chunk of fewer than 8 words
would make the Go loop panic (`none`). -/
def blocks : Filter → Option (List ℕ)
  | [] => some []
  | w0 :: w1 :: w2 :: w3 :: w4 :: w5 :: w6 :: w7 :: rest =>
      (blocks rest).map fun l =>
        (popcount64 w0 + popcount64 w1 + popcount64 w2 + popcount64 w3 +
         popcount64 w4 + popcount64 w5 + popcount64 w6 + popcount64 w7) :: l
  | _ => none

/-- IEEE `math.Log1p` on the arguments `Len` feeds it (`x ∈ [-1, 0)`):
exactly `-Inf` at `-1`, the real logarithm elsewhere. -/
noncomputable def goLog1p (x : ℝ) : EReal :=
  if x ≤ -1 then (⊥ : EReal) else ((Real.log (1 + x) : ℝ) : EReal)

/-- One block's contribution to the `Len` accumulator:
`if ones != 0 { n += math.Log1p(-float64(ones) / 512) }`. -/
noncomputable def blockTerm (ones : ℕ) : EReal :=
  if ones ≠ 0 then goLog1p (-(ones : ℝ) / 512) else 0

/-- `math.MaxInt` on a 64-bit platform. -/
def goMaxInt : ℤ := 9223372036854775807

/-- Go's `int(x)` conversion of a finite `float64`: truncation toward zero. -/
noncomputable def goTrunc (x : ℝ) : ℤ := if 0 ≤ x then ⌊x⌋ else ⌈x⌉

/-- `Filter.Len`: sum the per-block `Log1p` terms; if the sum is `-Inf`
return `math.MaxInt`, otherwise `int(-(512/8) * n)`. -/
noncomputable def Filter.Len (f : Filter) : Option ℤ :=
  (blocks f).map fun l =>
    let n : EReal := (l.map blockTerm).sum
    if n = ⊥ then goMaxInt else goTrunc (-(512 / 8 : ℝ) * n.toReal)

/-- One block's contribution to the `Len` sum, as a real number
(defined for unsaturated blocks, `ones < 512`). -/
noncomputable def realBlockTerm (ones : ℕ) : ℝ :=
  if ones ≠ 0 then Real.log (1 + -(ones : ℝ) / 512) else 0

/-- The spec's version of `Len`, for comparison with the code's: the
spec states `final estimate = round(-(512/8) * sum)`, i.e. rounding to
the nearest integer instead of Go's truncating `int(...)` conversion.
Identical to `Filter.Len` except for that final conversion. -/
noncomputable def lenSpecRound (f : Filter) : Option ℤ :=
  (blocks f).map fun l =>
    let n : EReal := (l.map blockTerm).sum
    if n = ⊥ then goMaxInt else round (-(512 / 8 : ℝ) * n.toReal)

/-! ## Arithmetic facts about the addressing functions -/

lemma U32_eq : U32 = 4294967296 := rfl

lemma parity_le_one (i h1 : ℕ) : parity i h1 ≤ 1 := by
  have h : i * h1 % U32 < U32 := Nat.mod_lt _ (by norm_num [U32])
  have h2 : i * h1 % U32 / 2 ^ 31 < 2 :=
    (Nat.div_lt_iff_lt_mul (by norm_num : 0 < 2 ^ 31)).2 (by
      calc i * h1 % U32 < U32 := h
        _ = 2 * 2 ^ 31 := by norm_num [U32])
  unfold parity
  omega

lemma sectorBase_dvd (h0 n : ℕ) : 8 ∣ sectorBase h0 n := by
  unfold sectorBase
  exact ⟨h0 % n / 8, mul_comm _ _⟩

lemma sectorBase_lt (h0 n : ℕ) (hn : 0 < n) : sectorBase h0 n < n := by
  unfold sectorBase
  calc h0 % n / 8 * 8 ≤ h0 % n := Nat.div_mul_le_self _ _
    _ < n := Nat.mod_lt _ hn

lemma sectorBase_add_eight_le (h0 n : ℕ) (hn : 0 < n) (h8 : 8 ∣ n) :
    sectorBase h0 n + 8 ≤ n := by
  have h1 := sectorBase_lt h0 n hn
  have h2 := sectorBase_dvd h0 n
  omega

lemma sectors_1_eq (h0 h1 n : ℕ) (hn : 0 < n) (hU : n ≤ U32) :
    (sectors h0 h1 n).1 = sectorBase h0 n + 0 + parity 1 h1 := by
  have hb := sectorBase_lt h0 n hn
  have hd := sectorBase_dvd h0 n
  have hp := parity_le_one 1 h1
  have hU32 : (8 : ℕ) ∣ U32 := by norm_num [U32]
  exact Nat.mod_eq_of_lt (by rw [U32_eq] at *; omega)

lemma sectors_2_eq (h0 h1 n : ℕ) (hn : 0 < n) (hU : n ≤ U32) :
    (sectors h0 h1 n).2.1 = sectorBase h0 n + 2 + parity 2 h1 := by
  have hb := sectorBase_lt h0 n hn
  have hd := sectorBase_dvd h0 n
  have hp := parity_le_one 2 h1
  have hU32 : (8 : ℕ) ∣ U32 := by norm_num [U32]
  exact Nat.mod_eq_of_lt (by rw [U32_eq] at *; omega)

lemma sectors_3_eq (h0 h1 n : ℕ) (hn : 0 < n) (hU : n ≤ U32) :
    (sectors h0 h1 n).2.2.1 = sectorBase h0 n + 4 + parity 3 h1 := by
  have hb := sectorBase_lt h0 n hn
  have hd := sectorBase_dvd h0 n
  have hp := parity_le_one 3 h1
  have hU32 : (8 : ℕ) ∣ U32 := by norm_num [U32]
  exact Nat.mod_eq_of_lt (by rw [U32_eq] at *; omega)

lemma sectors_4_eq (h0 h1 n : ℕ) (hn : 0 < n) (hU : n ≤ U32) :
    (sectors h0 h1 n).2.2.2 = sectorBase h0 n + 6 + parity 4 h1 := by
  have hb := sectorBase_lt h0 n hn
  have hd := sectorBase_dvd h0 n
  have hp := parity_le_one 4 h1
  have hU32 : (8 : ℕ) ∣ U32 := by norm_num [U32]
  exact Nat.mod_eq_of_lt (by rw [U32_eq] at *; omega)

lemma sectors_lt_all (h0 h1 n : ℕ) (hn : 0 < n) (h8 : 8 ∣ n) (hU : n ≤ U32) :
    (sectors h0 h1 n).1 < n ∧ (sectors h0 h1 n).2.1 < n ∧
    (sectors h0 h1 n).2.2.1 < n ∧ (sectors h0 h1 n).2.2.2 < n := by
  rw [sectors_1_eq h0 h1 n hn hU, sectors_2_eq h0 h1 n hn hU,
    sectors_3_eq h0 h1 n hn hU, sectors_4_eq h0 h1 n hn hU]
  have hb := sectorBase_add_eight_le h0 n hn h8
  have p1 := parity_le_one 1 h1
  have p2 := parity_le_one 2 h1
  have p3 := parity_le_one 3 h1
  have p4 := parity_le_one 4 h1
  omega

lemma sectors_distinct_all (h0 h1 n : ℕ) (hn : 0 < n) (hU : n ≤ U32) :
    (sectors h0 h1 n).1 ≠ (sectors h0 h1 n).2.1 ∧
    (sectors h0 h1 n).1 ≠ (sectors h0 h1 n).2.2.1 ∧
    (sectors h0 h1 n).1 ≠ (sectors h0 h1 n).2.2.2 ∧
    (sectors h0 h1 n).2.1 ≠ (sectors h0 h1 n).2.2.1 ∧
    (sectors h0 h1 n).2.1 ≠ (sectors h0 h1 n).2.2.2 ∧
    (sectors h0 h1 n).2.2.1 ≠ (sectors h0 h1 n).2.2.2 := by
  rw [sectors_1_eq h0 h1 n hn hU, sectors_2_eq h0 h1 n hn hU,
    sectors_3_eq h0 h1 n hn hU, sectors_4_eq h0 h1 n hn hU]
  have p1 := parity_le_one 1 h1
  have p2 := parity_le_one 2 h1
  have p3 := parity_le_one 3 h1
  have p4 := parity_le_one 4 h1
  omega

/-! ## List and bitwise helpers -/

lemma getElem?_of_lt {l : List ℕ} {i : ℕ} (h : i < l.length) :
    l[i]? = some (l.getD i 0) := by
  rw [List.getElem?_eq_getElem h, List.getD_eq_getElem?_getD, List.getElem?_eq_getElem h]
  rfl

lemma getElem?_some_inv {l : List ℕ} {s m : ℕ} (h : l[s]? = some m) :
    s < l.length ∧ l.getD s 0 = m := by
  have hlt : s < l.length := by
    by_contra hge
    rw [List.getElem?_eq_none (by omega)] at h
    cases h
  refine ⟨hlt, ?_⟩
  rw [List.getD_eq_getElem?_getD, h]
  rfl

lemma getD_set_self {f : Filter} {i : ℕ} (h : i < f.length) (v : ℕ) :
    (f.set i v).getD i 0 = v := by
  rw [List.getD_eq_getElem?_getD, List.getElem?_set_self h]
  rfl

lemma getD_set_ne {f : Filter} {i j : ℕ} (h : i ≠ j) (v : ℕ) :
    (f.set i v).getD j 0 = f.getD j 0 := by
  rw [List.getD_eq_getElem?_getD, List.getElem?_set_ne h, ← List.getD_eq_getElem?_getD]

lemma set_getD_self : ∀ (l : List ℕ) (i : ℕ), l.set i (l.getD i 0) = l := by
  intro l
  induction l with
  | nil => intro i; rfl
  | cons a t ih =>
    intro i
    cases i with
    | zero => rfl
    | succ j =>
      rw [List.getD_cons_succ, List.set_cons_succ, ih j]

lemma lor_land_self (a z : ℕ) : (a ||| z) &&& z = z := by
  apply Nat.eq_of_testBit_eq
  intro i
  rw [Nat.testBit_land, Nat.testBit_lor]
  cases a.testBit i <;> cases z.testBit i <;> rfl

lemma lor_lor_self (a z : ℕ) : a ||| z ||| z = a ||| z := by
  apply Nat.eq_of_testBit_eq
  intro i
  rw [Nat.testBit_lor, Nat.testBit_lor]
  cases a.testBit i <;> cases z.testBit i <;> rfl

lemma land_mask_of_lor {a z : ℕ} (w : ℕ) (h : a &&& z = z) : (a ||| w) &&& z = z := by
  apply Nat.eq_of_testBit_eq
  intro i
  have hi : (a.testBit i && z.testBit i) = z.testBit i := by
    rw [← Nat.testBit_land, h]
  rw [Nat.testBit_land, Nat.testBit_lor]
  cases hz : z.testBit i
  · simp
  · rw [hz] at hi
    simp only [Bool.and_true] at hi
    rw [hi]
    rfl

/-! ## Characterizing the fallible operations on in-range inputs -/

lemma setBitsP_length (f : Filter) (s z : ℕ) : (setBitsP f s z).length = f.length :=
  List.length_set f s _

lemma atomicSetBits_eq (f : Filter) (s z : ℕ) (h : s < f.length) :
    f.atomicSetBits s z = some (f.getD s 0, setBitsP f s z) := by
  unfold Filter.atomicSetBits setBitsP
  rw [getElem?_of_lt h]
  rfl

lemma addCore (f : Filter) (s0 s1 s2 s3 z0 z1 z2 z3 : ℕ)
    (hs0 : s0 < f.length) (hs1 : s1 < f.length) (hs2 : s2 < f.length) (hs3 : s3 < f.length) :
    ((f.atomicSetBits s0 z0).bind fun p0 =>
     (p0.2.atomicSetBits s1 z1).bind fun p1 =>
     (p1.2.atomicSetBits s2 z2).bind fun p2 =>
     (p2.2.atomicSetBits s3 z3).map fun p3 => p3.2) =
    some (setBitsP (setBitsP (setBitsP (setBitsP f s0 z0) s1 z1) s2 z2) s3 z3) := by
  rw [atomicSetBits_eq f s0 z0 hs0]
  simp only [Option.some_bind]
  rw [atomicSetBits_eq _ s1 z1 (by rw [setBitsP_length]; exact hs1)]
  simp only [Option.some_bind]
  rw [atomicSetBits_eq _ s2 z2 (by rw [setBitsP_length, setBitsP_length]; exact hs2)]
  simp only [Option.some_bind]
  rw [atomicSetBits_eq _ s3 z3
    (by rw [setBitsP_length, setBitsP_length, setBitsP_length]; exact hs3)]
  simp only [Option.map_some']

lemma testCore (f : Filter) (s0 s1 s2 s3 z0 z1 z2 z3 : ℕ)
    (hs0 : s0 < f.length) (hs1 : s1 < f.length) (hs2 : s2 < f.length) (hs3 : s3 < f.length) :
    ((f[s0]?).bind fun m0 =>
     (f[s1]?).bind fun m1 =>
     (f[s2]?).bind fun m2 =>
     (f[s3]?).map fun m3 =>
       decide (m0 &&& z0 = z0 ∧ m1 &&& z1 = z1 ∧ m2 &&& z2 = z2 ∧ m3 &&& z3 = z3)) =
    some (decide (f.getD s0 0 &&& z0 = z0 ∧ f.getD s1 0 &&& z1 = z1 ∧
      f.getD s2 0 &&& z2 = z2 ∧ f.getD s3 0 &&& z3 = z3)) := by
  rw [getElem?_of_lt hs0]
  simp only [Option.some_bind]
  rw [getElem?_of_lt hs1]
  simp only [Option.some_bind]
  rw [getElem?_of_lt hs2]
  simp only [Option.some_bind]
  rw [getElem?_of_lt hs3]
  simp only [Option.map_some']

lemma tadCore (f : Filter) (s0 s1 s2 s3 z0 z1 z2 z3 : ℕ)
    (hs0 : s0 < f.length) (hs1 : s1 < f.length) (hs2 : s2 < f.length) (hs3 : s3 < f.length)
    (d01 : s0 ≠ s1) (d02 : s0 ≠ s2) (d03 : s0 ≠ s3)
    (d12 : s1 ≠ s2) (d13 : s1 ≠ s3) (d23 : s2 ≠ s3) :
    ((f.atomicSetBits s0 z0).bind fun p0 =>
     (p0.2.atomicSetBits s1 z1).bind fun p1 =>
     (p1.2.atomicSetBits s2 z2).bind fun p2 =>
     (p2.2.atomicSetBits s3 z3).map fun p3 =>
       (decide (p0.1 &&& z0 = z0 ∧ p1.1 &&& z1 = z1 ∧ p2.1 &&& z2 = z2 ∧ p3.1 &&& z3 = z3),
        p3.2)) =
    some (decide (f.getD s0 0 &&& z0 = z0 ∧ f.getD s1 0 &&& z1 = z1 ∧
            f.getD s2 0 &&& z2 = z2 ∧ f.getD s3 0 &&& z3 = z3),
          setBitsP (setBitsP (setBitsP (setBitsP f s0 z0) s1 z1) s2 z2) s3 z3) := by
  rw [atomicSetBits_eq f s0 z0 hs0]
  simp only [Option.some_bind]
  rw [atomicSetBits_eq _ s1 z1 (by rw [setBitsP_length]; exact hs1)]
  simp only [Option.some_bind]
  rw [atomicSetBits_eq _ s2 z2 (by rw [setBitsP_length, setBitsP_length]; exact hs2)]
  simp only [Option.some_bind]
  rw [atomicSetBits_eq _ s3 z3
    (by rw [setBitsP_length, setBitsP_length, setBitsP_length]; exact hs3)]
  simp only [Option.map_some']
  have e1 : (setBitsP f s0 z0).getD s1 0 = f.getD s1 0 := by
    unfold setBitsP
    exact getD_set_ne d01 _
  have e2 : (setBitsP (setBitsP f s0 z0) s1 z1).getD s2 0 = f.getD s2 0 := by
    unfold setBitsP
    rw [getD_set_ne d12 _, getD_set_ne d02 _]
  have e3 : (setBitsP (setBitsP (setBitsP f s0 z0) s1 z1) s2 z2).getD s3 0 = f.getD s3 0 := by
    unfold setBitsP
    rw [getD_set_ne d23 _, getD_set_ne d13 _, getD_set_ne d03 _]
  rw [e1, e2, e3]

lemma sectors_lt_len (f : Filter) (h0 h1 : ℕ)
    (hpos : 0 < f.length) (h8 : 8 ∣ f.length) (hU : f.length < U32) :
    (sectors h0 h1 (f.length % U32)).1 < f.length ∧
    (sectors h0 h1 (f.length % U32)).2.1 < f.length ∧
    (sectors h0 h1 (f.length % U32)).2.2.1 < f.length ∧
    (sectors h0 h1 (f.length % U32)).2.2.2 < f.length := by
  have hn : f.length % U32 = f.length := Nat.mod_eq_of_lt hU
  rw [hn]
  exact sectors_lt_all h0 h1 f.length hpos h8 (le_of_lt hU)

lemma add_eq (f : Filter) (x : ℕ)
    (hpos : 0 < f.length) (h8 : 8 ∣ f.length) (hU : f.length < U32) :
    f.Add x = some (f.addP x) := by
  have hn : f.length % U32 = f.length := Nat.mod_eq_of_lt hU
  have hne : ¬ f.length % U32 = 0 := by omega
  obtain ⟨hs0, hs1, hs2, hs3⟩ := sectors_lt_len f (splithash x).1 (splithash x).2 hpos h8 hU
  simp only [Filter.Add, Filter.addP]
  rw [if_neg hne]
  exact addCore f _ _ _ _ _ _ _ _ hs0 hs1 hs2 hs3

lemma test_eq (f : Filter) (x : ℕ)
    (hpos : 0 < f.length) (h8 : 8 ∣ f.length) (hU : f.length < U32) :
    f.Test x = some (f.testP x) := by
  have hn : f.length % U32 = f.length := Nat.mod_eq_of_lt hU
  have hne : ¬ f.length % U32 = 0 := by omega
  obtain ⟨hs0, hs1, hs2, hs3⟩ := sectors_lt_len f (splithash x).1 (splithash x).2 hpos h8 hU
  simp only [Filter.Test, Filter.testP]
  rw [if_neg hne]
  exact testCore f _ _ _ _ _ _ _ _ hs0 hs1 hs2 hs3

lemma tad_eq (f : Filter) (x : ℕ)
    (hpos : 0 < f.length) (h8 : 8 ∣ f.length) (hU : f.length < U32) :
    f.TestAndAdd x = some (f.testP x, f.addP x) := by
  have hn : f.length % U32 = f.length := Nat.mod_eq_of_lt hU
  have hne : ¬ f.length % U32 = 0 := by omega
  obtain ⟨hs0, hs1, hs2, hs3⟩ := sectors_lt_len f (splithash x).1 (splithash x).2 hpos h8 hU
  have hd := sectors_distinct_all (splithash x).1 (splithash x).2 (f.length % U32)
    (by omega) (le_of_lt (Nat.mod_lt _ (by norm_num [U32])))
  simp only [Filter.TestAndAdd, Filter.testP, Filter.addP]
  rw [if_neg hne]
  exact tadCore f _ _ _ _ _ _ _ _ hs0 hs1 hs2 hs3
    hd.1 hd.2.1 hd.2.2.1 hd.2.2.2.1 hd.2.2.2.2.1 hd.2.2.2.2.2

lemma ops_isSome (f : Filter) (x : ℕ)
    (hpos : 0 < f.length) (h8 : 8 ∣ f.length) (hU : f.length < U32) :
    (f.Add x).isSome ∧ (f.Test x).isSome ∧ (f.TestAndAdd x).isSome := by
  rw [add_eq f x hpos h8 hU, test_eq f x hpos h8 hU, tad_eq f x hpos h8 hU]
  exact ⟨rfl, rfl, rfl⟩

lemma addP_length (f : Filter) (x : ℕ) : (f.addP x).length = f.length := by
  simp only [Filter.addP]
  rw [setBitsP_length, setBitsP_length, setBitsP_length, setBitsP_length]

lemma addP_getD (f : Filter) (x : ℕ)
    (hpos : 0 < f.length) (h8 : 8 ∣ f.length) (hU : f.length < U32) :
    (f.addP x).getD (sectors (splithash x).1 (splithash x).2 (f.length % U32)).1 0 =
      f.getD (sectors (splithash x).1 (splithash x).2 (f.length % U32)).1 0 |||
        (bitmasks (splithash x).1 (splithash x).2).1 ∧
    (f.addP x).getD (sectors (splithash x).1 (splithash x).2 (f.length % U32)).2.1 0 =
      f.getD (sectors (splithash x).1 (splithash x).2 (f.length % U32)).2.1 0 |||
        (bitmasks (splithash x).1 (splithash x).2).2.1 ∧
    (f.addP x).getD (sectors (splithash x).1 (splithash x).2 (f.length % U32)).2.2.1 0 =
      f.getD (sectors (splithash x).1 (splithash x).2 (f.length % U32)).2.2.1 0 |||
        (bitmasks (splithash x).1 (splithash x).2).2.2.1 ∧
    (f.addP x).getD (sectors (splithash x).1 (splithash x).2 (f.length % U32)).2.2.2 0 =
      f.getD (sectors (splithash x).1 (splithash x).2 (f.length % U32)).2.2.2 0 |||
        (bitmasks (splithash x).1 (splithash x).2).2.2.2 := by
  obtain ⟨hs0, hs1, hs2, hs3⟩ := sectors_lt_len f (splithash x).1 (splithash x).2 hpos h8 hU
  have hd := sectors_distinct_all (splithash x).1 (splithash x).2 (f.length % U32)
    (by have := Nat.mod_eq_of_lt hU; omega)
    (le_of_lt (Nat.mod_lt _ (by norm_num [U32])))
  obtain ⟨d01, d02, d03, d12, d13, d23⟩ := hd
  simp only [Filter.addP, setBitsP]
  refine ⟨?_, ?_, ?_, ?_⟩
  · rw [getD_set_ne d03.symm _, getD_set_ne d02.symm _, getD_set_ne d01.symm _,
      getD_set_self hs0 _]
  · rw [getD_set_ne d13.symm _, getD_set_ne d12.symm _,
      getD_set_self (by rw [List.length_set]; exact hs1) _, getD_set_ne d01 _]
  · rw [getD_set_ne d23.symm _,
      getD_set_self (by rw [List.length_set, List.length_set]; exact hs2) _,
      getD_set_ne d12 _, getD_set_ne d02 _]
  · rw [getD_set_self
      (by rw [List.length_set, List.length_set, List.length_set]; exact hs3) _,
      getD_set_ne d23 _, getD_set_ne d13 _, getD_set_ne d03 _]

lemma testP_addP_true (f : Filter) (x : ℕ)
    (hpos : 0 < f.length) (h8 : 8 ∣ f.length) (hU : f.length < U32) :
    (f.addP x).testP x = true := by
  have hlen := addP_length f x
  obtain ⟨e0, e1, e2, e3⟩ := addP_getD f x hpos h8 hU
  simp only [Filter.testP]
  rw [hlen, decide_eq_true_eq]
  exact ⟨by rw [e0]; exact lor_land_self _ _, by rw [e1]; exact lor_land_self _ _,
    by rw [e2]; exact lor_land_self _ _, by rw [e3]; exact lor_land_self _ _⟩

lemma addP_addP (f : Filter) (x : ℕ)
    (hpos : 0 < f.length) (h8 : 8 ∣ f.length) (hU : f.length < U32) :
    (f.addP x).addP x = f.addP x := by
  have hlen := addP_length f x
  obtain ⟨e0, e1, e2, e3⟩ := addP_getD f x hpos h8 hU
  have h1 : setBitsP (f.addP x)
      (sectors (splithash x).1 (splithash x).2 (f.length % U32)).1
      (bitmasks (splithash x).1 (splithash x).2).1 = f.addP x := by
    unfold setBitsP
    rw [e0, lor_lor_self, ← e0, set_getD_self]
  have h2 : setBitsP (f.addP x)
      (sectors (splithash x).1 (splithash x).2 (f.length % U32)).2.1
      (bitmasks (splithash x).1 (splithash x).2).2.1 = f.addP x := by
    unfold setBitsP
    rw [e1, lor_lor_self, ← e1, set_getD_self]
  have h3 : setBitsP (f.addP x)
      (sectors (splithash x).1 (splithash x).2 (f.length % U32)).2.2.1
      (bitmasks (splithash x).1 (splithash x).2).2.2.1 = f.addP x := by
    unfold setBitsP
    rw [e2, lor_lor_self, ← e2, set_getD_self]
  have h4 : setBitsP (f.addP x)
      (sectors (splithash x).1 (splithash x).2 (f.length % U32)).2.2.2
      (bitmasks (splithash x).1 (splithash x).2).2.2.2 = f.addP x := by
    unfold setBitsP
    rw [e3, lor_lor_self, ← e3, set_getD_self]
  show setBitsP (setBitsP (setBitsP (setBitsP (f.addP x)
      (sectors (splithash x).1 (splithash x).2 ((f.addP x).length % U32)).1
      (bitmasks (splithash x).1 (splithash x).2).1)
      (sectors (splithash x).1 (splithash x).2 ((f.addP x).length % U32)).2.1
      (bitmasks (splithash x).1 (splithash x).2).2.1)
      (sectors (splithash x).1 (splithash x).2 ((f.addP x).length % U32)).2.2.1
      (bitmasks (splithash x).1 (splithash x).2).2.2.1)
      (sectors (splithash x).1 (splithash x).2 ((f.addP x).length % U32)).2.2.2
      (bitmasks (splithash x).1 (splithash x).2).2.2.2 = f.addP x
  rw [hlen, h1, h2, h3, h4]

/-! ## Claim theorems -/

/-- C1: for every filter whose word-length is a positive multiple of 8 (within the
32-bit addressing domain of `uint32(len(f))`) and every key, if `Add x` completed
(returned a state rather than panicking), a subsequent `Test x` on the resulting
state returns `true`: no false negatives for completed adds. -/
theorem add_complete_test_true (f : Filter) (x : ℕ) (f' : Filter)
    (hpos : 0 < f.length) (h8 : 8 ∣ f.length) (hU : f.length < U32)
    (hadd : f.Add x = some f') : f'.Test x = some true := by
  rw [add_eq f x hpos h8 hU] at hadd
  obtain rfl : f.addP x = f' := Option.some.inj hadd
  have hlen := addP_length f x
  rw [test_eq (f.addP x) x (by omega) (by rw [hlen]; exact h8) (by omega)]
  rw [testP_addP_true f x hpos h8 hU]

/-- Witness for C1 at a concrete 8-word filter and key 0. -/
theorem add_complete_test_true_witness :
    (0 < (List.replicate 8 0 : Filter).length ∧ 8 ∣ (List.replicate 8 0 : Filter).length ∧
      (List.replicate 8 0 : Filter).length < U32 ∧
      Filter.Add (List.replicate 8 0) 0 = some [1, 0, 1, 0, 1, 0, 1, 0]) ∧
    Filter.Test [1, 0, 1, 0, 1, 0, 1, 0] 0 = some true :=
  ⟨⟨by decide, by decide, by decide, by decide⟩,
   add_complete_test_true (List.replicate 8 0) 0 [1, 0, 1, 0, 1, 0, 1, 0]
     (by decide) (by decide) (by decide) (by decide)⟩

/-- C3: on a filter whose word-length is a positive multiple of 8 (within the
32-bit addressing domain), `TestAndAdd x` returns exactly the boolean `Test x`
would return on the pre-call state, paired with exactly the state `Add x` would
produce. -/
theorem testAndAdd_refines_test_add (f : Filter) (x : ℕ)
    (hpos : 0 < f.length) (h8 : 8 ∣ f.length) (hU : f.length < U32) :
    ∃ b f', f.Test x = some b ∧ f.Add x = some f' ∧ f.TestAndAdd x = some (b, f') :=
  ⟨f.testP x, f.addP x, test_eq f x hpos h8 hU, add_eq f x hpos h8 hU,
    tad_eq f x hpos h8 hU⟩

/-- Witness for C3 at a concrete 8-word filter and key 5. -/
theorem testAndAdd_refines_test_add_witness :
    (0 < (List.replicate 8 0 : Filter).length ∧ 8 ∣ (List.replicate 8 0 : Filter).length ∧
      (List.replicate 8 0 : Filter).length < U32) ∧
    (∃ b f', Filter.Test (List.replicate 8 0) 5 = some b ∧
      Filter.Add (List.replicate 8 0) 5 = some f' ∧
      Filter.TestAndAdd (List.replicate 8 0) 5 = some (b, f')) :=
  ⟨⟨by decide, by decide, by decide⟩,
   testAndAdd_refines_test_add (List.replicate 8 0) 5 (by decide) (by decide) (by decide)⟩

/-- C6: `Add` is idempotent — on a filter whose word-length is a positive
multiple of 8 (within the 32-bit addressing domain), `Add x` produces a state
`g` that is a fixed point of `Add x`, and any further number of repetitions of
`Add x` leaves the bit pattern at exactly `g`. -/
theorem add_idempotent (f : Filter) (x : ℕ)
    (hpos : 0 < f.length) (h8 : 8 ∣ f.length) (hU : f.length < U32) :
    ∃ g, f.Add x = some g ∧ g.Add x = some g ∧ ∀ k, Filter.addTimes g x k = some g := by
  have hlen := addP_length f x
  have hfix : (f.addP x).Add x = some (f.addP x) := by
    rw [add_eq (f.addP x) x (by omega) (by rw [hlen]; exact h8) (by omega)]
    rw [addP_addP f x hpos h8 hU]
  refine ⟨f.addP x, add_eq f x hpos h8 hU, hfix, ?_⟩
  intro k
  induction k with
  | zero => rfl
  | succ k ih =>
    simp only [Filter.addTimes, hfix, Option.some_bind]
    exact ih

/-- Witness for C6 at a concrete 8-word filter and key 7. -/
theorem add_idempotent_witness :
    (0 < (List.replicate 8 0 : Filter).length ∧ 8 ∣ (List.replicate 8 0 : Filter).length ∧
      (List.replicate 8 0 : Filter).length < U32) ∧
    (∃ g, Filter.Add (List.replicate 8 0) 7 = some g ∧ Filter.Add g 7 = some g ∧
      ∀ k, Filter.addTimes g 7 k = some g) :=
  ⟨⟨by decide, by decide, by decide⟩,
   add_idempotent (List.replicate 8 0) 7 (by decide) (by decide) (by decide)⟩

/-- C10: for every word-length `n` that is a positive multiple of 8 (in the
`uint32` domain of the addressing function) and any split key halves, the four
sector indices are pairwise distinct, all below `n`, and all inside the 8-word
aligned block based at `(h0 mod n)` with its low 3 bits cleared; consequently
`Add`, `Test` and `TestAndAdd` on a filter of that length never fail (never
touch a word out of range). -/
theorem sectors_distinct_in_block_safety (h0 h1 n : ℕ)
    (hn : 0 < n) (h8 : 8 ∣ n) (hU : n < U32) :
    ((sectors h0 h1 n).1 ≠ (sectors h0 h1 n).2.1 ∧
     (sectors h0 h1 n).1 ≠ (sectors h0 h1 n).2.2.1 ∧
     (sectors h0 h1 n).1 ≠ (sectors h0 h1 n).2.2.2 ∧
     (sectors h0 h1 n).2.1 ≠ (sectors h0 h1 n).2.2.1 ∧
     (sectors h0 h1 n).2.1 ≠ (sectors h0 h1 n).2.2.2 ∧
     (sectors h0 h1 n).2.2.1 ≠ (sectors h0 h1 n).2.2.2) ∧
    ((sectors h0 h1 n).1 < n ∧ (sectors h0 h1 n).2.1 < n ∧
     (sectors h0 h1 n).2.2.1 < n ∧ (sectors h0 h1 n).2.2.2 < n) ∧
    (8 ∣ h0 % n / 8 * 8 ∧
     (h0 % n / 8 * 8 ≤ (sectors h0 h1 n).1 ∧
       (sectors h0 h1 n).1 < h0 % n / 8 * 8 + 8) ∧
     (h0 % n / 8 * 8 ≤ (sectors h0 h1 n).2.1 ∧
       (sectors h0 h1 n).2.1 < h0 % n / 8 * 8 + 8) ∧
     (h0 % n / 8 * 8 ≤ (sectors h0 h1 n).2.2.1 ∧
       (sectors h0 h1 n).2.2.1 < h0 % n / 8 * 8 + 8) ∧
     (h0 % n / 8 * 8 ≤ (sectors h0 h1 n).2.2.2 ∧
       (sectors h0 h1 n).2.2.2 < h0 % n / 8 * 8 + 8)) ∧
    (∀ (f : Filter) (x : ℕ), f.length = n →
      (f.Add x).isSome ∧ (f.Test x).isSome ∧ (f.TestAndAdd x).isSome) := by
  refine ⟨sectors_distinct_all h0 h1 n hn (le_of_lt hU),
    sectors_lt_all h0 h1 n hn h8 (le_of_lt hU), ?_, ?_⟩
  · have e1 := sectors_1_eq h0 h1 n hn (le_of_lt hU)
    have e2 := sectors_2_eq h0 h1 n hn (le_of_lt hU)
    have e3 := sectors_3_eq h0 h1 n hn (le_of_lt hU)
    have e4 := sectors_4_eq h0 h1 n hn (le_of_lt hU)
    have p1 := parity_le_one 1 h1
    have p2 := parity_le_one 2 h1
    have p3 := parity_le_one 3 h1
    have p4 := parity_le_one 4 h1
    simp only [sectorBase] at e1 e2 e3 e4
    refine ⟨⟨h0 % n / 8, mul_comm _ _⟩, ?_, ?_, ?_, ?_⟩ <;> omega
  · intro f x hlenn
    exact ops_isSome f x (by rw [hlenn]; exact hn) (by rw [hlenn]; exact h8)
      (by rw [hlenn]; exact hU)

/-- Witness for C10 at `h0 = 3`, `h1 = 9`, `n = 16`, and a concrete 16-word
filter with key 12. -/
theorem sectors_distinct_in_block_safety_witness :
    ((0 : ℕ) < 16 ∧ (8 : ℕ) ∣ 16 ∧ (16 : ℕ) < U32) ∧
    (sectors 3 9 16).1 ≠ (sectors 3 9 16).2.1 ∧
    ((Filter.Add (List.replicate 16 0) 12).isSome ∧
     (Filter.Test (List.replicate 16 0) 12).isSome ∧
     (Filter.TestAndAdd (List.replicate 16 0) 12).isSome) :=
  ⟨⟨by decide, by decide, by decide⟩,
   (sectors_distinct_in_block_safety 3 9 16 (by decide) (by decide) (by decide)).1.1,
   (sectors_distinct_in_block_safety 3 9 16 (by decide) (by decide) (by decide)).2.2.2
     (List.replicate 16 0) 12 (by decide)⟩

/-! ## UnionWith -/

lemma getD_setBitsP_self {f : Filter} {s : ℕ} (h : s < f.length) (z : ℕ) :
    (setBitsP f s z).getD s 0 = f.getD s 0 ||| z := by
  unfold setBitsP
  exact getD_set_self h _

lemma getD_setBitsP_ne {f : Filter} {s j : ℕ} (h : s ≠ j) (z : ℕ) :
    (setBitsP f s z).getD j 0 = f.getD j 0 := by
  unfold setBitsP
  exact getD_set_ne h _

lemma unionFold_spec (f g : Filter) (hU : f.length < U32) :
    ∀ k, k ≤ f.length →
      ((List.range k).foldl (fun acc i => setBitsP acc (i % U32) (g.getD i 0)) f).length =
        f.length ∧
      ∀ j, j < f.length →
        ((List.range k).foldl (fun acc i => setBitsP acc (i % U32) (g.getD i 0)) f).getD j 0 =
          if j < k then f.getD j 0 ||| g.getD j 0 else f.getD j 0 := by
  intro k
  induction k with
  | zero =>
    intro _
    refine ⟨by simp [List.range_zero], ?_⟩
    intro j hj
    simp
  | succ k ih =>
    intro hk1
    obtain ⟨ihlen, ihget⟩ := ih (by omega)
    rw [List.range_succ, List.foldl_append]
    simp only [List.foldl_cons, List.foldl_nil]
    have hkU : k % U32 = k := Nat.mod_eq_of_lt (by omega)
    constructor
    · rw [setBitsP_length, ihlen]
    · intro j hj
      rw [hkU]
      by_cases hjk : j = k
      · subst hjk
        rw [getD_setBitsP_self (by rw [ihlen]; omega) _]
        rw [ihget j (by omega), if_neg (by omega), if_pos (by omega)]
      · rw [getD_setBitsP_ne (by omega) _, ihget j hj]
        by_cases hjik : j < k
        · rw [if_pos hjik, if_pos (by omega)]
        · rw [if_neg hjik, if_neg (by omega)]

lemma unionLoop_length (f g : Filter) (hU : f.length < U32) :
    (unionLoop f g).length = f.length :=
  (unionFold_spec f g hU f.length le_rfl).1

lemma unionLoop_getD (f g : Filter) (hU : f.length < U32) (j : ℕ) (hj : j < f.length) :
    (unionLoop f g).getD j 0 = f.getD j 0 ||| g.getD j 0 := by
  have h := (unionFold_spec f g hU f.length le_rfl).2 j hj
  unfold unionLoop
  rw [h, if_pos hj]

lemma test_true_monotone (f f' : Filter) (hlen : f'.length = f.length)
    (hsup : ∀ j, j < f.length → ∃ w, f'.getD j 0 = f.getD j 0 ||| w)
    (x : ℕ) (h : f.Test x = some true) : f'.Test x = some true := by
  simp only [Filter.Test] at h ⊢
  rw [hlen]
  by_cases hn : f.length % U32 = 0
  · rw [if_pos hn] at h
    exact Option.noConfusion h
  · rw [if_neg hn] at h
    rw [if_neg hn]
    simp only [Option.bind_eq_some, Option.map_eq_some'] at h
    obtain ⟨m0, hm0, m1, hm1, m2, hm2, m3, hm3, hdec⟩ := h
    obtain ⟨hs0, hg0⟩ := getElem?_some_inv hm0
    obtain ⟨hs1, hg1⟩ := getElem?_some_inv hm1
    obtain ⟨hs2, hg2⟩ := getElem?_some_inv hm2
    obtain ⟨hs3, hg3⟩ := getElem?_some_inv hm3
    rw [decide_eq_true_eq] at hdec
    obtain ⟨c0, c1, c2, c3⟩ := hdec
    rw [getElem?_of_lt (show _ < f'.length by rw [hlen]; exact hs0)]
    simp only [Option.some_bind]
    rw [getElem?_of_lt (show _ < f'.length by rw [hlen]; exact hs1)]
    simp only [Option.some_bind]
    rw [getElem?_of_lt (show _ < f'.length by rw [hlen]; exact hs2)]
    simp only [Option.some_bind]
    rw [getElem?_of_lt (show _ < f'.length by rw [hlen]; exact hs3)]
    simp only [Option.map_some']
    refine congrArg some ?_
    rw [decide_eq_true_eq]
    obtain ⟨w0, hw0⟩ := hsup _ hs0
    obtain ⟨w1, hw1⟩ := hsup _ hs1
    obtain ⟨w2, hw2⟩ := hsup _ hs2
    obtain ⟨w3, hw3⟩ := hsup _ hs3
    refine ⟨?_, ?_, ?_, ?_⟩
    · rw [hw0]; exact land_mask_of_lor w0 (by rw [hg0]; exact c0)
    · rw [hw1]; exact land_mask_of_lor w1 (by rw [hg1]; exact c1)
    · rw [hw2]; exact land_mask_of_lor w2 (by rw [hg2]; exact c2)
    · rw [hw3]; exact land_mask_of_lor w3 (by rw [hg3]; exact c3)

/-- C4: on equal word-length filters (within the 32-bit index domain of the
loop's `uint32(i)`), `UnionWith` succeeds and sets each word of the receiver to
the bitwise OR of the corresponding words; consequently a key testing true on
either operand before the union tests true on the result. -/
theorem unionWith_wordwise_or (f g : Filter) (hlen : f.length = g.length)
    (hU : f.length < U32) :
    ∃ f', f.UnionWith g = Except.ok f' ∧ f'.length = f.length ∧
      (∀ i, i < f.length → f'.getD i 0 = f.getD i 0 ||| g.getD i 0) ∧
      (∀ x, f.Test x = some true ∨ g.Test x = some true → f'.Test x = some true) := by
  refine ⟨unionLoop f g, ?_, unionLoop_length f g hU,
    fun i hi => unionLoop_getD f g hU i hi, ?_⟩
  · unfold Filter.UnionWith
    rw [if_pos hlen]
  · intro x hx
    rcases hx with hf | hg
    · exact test_true_monotone f (unionLoop f g) (unionLoop_length f g hU)
        (fun j hj => ⟨g.getD j 0, unionLoop_getD f g hU j hj⟩) x hf
    · refine test_true_monotone g (unionLoop f g)
        (by rw [unionLoop_length f g hU, hlen]) ?_ x hg
      intro j hj
      refine ⟨f.getD j 0, ?_⟩
      rw [unionLoop_getD f g hU j (by rw [hlen]; exact hj)]
      exact Nat.lor_comm _ _

/-- Witness for C4 at two concrete 8-word filters. -/
theorem unionWith_wordwise_or_witness :
    (([2, 0, 0, 0, 0, 0, 0, 0] : Filter).length = ([1, 0, 0, 0, 0, 0, 0, 0] : Filter).length ∧
      ([2, 0, 0, 0, 0, 0, 0, 0] : Filter).length < U32) ∧
    (∃ f', Filter.UnionWith [2, 0, 0, 0, 0, 0, 0, 0] [1, 0, 0, 0, 0, 0, 0, 0] =
        Except.ok f' ∧
      f'.length = ([2, 0, 0, 0, 0, 0, 0, 0] : Filter).length ∧
      (∀ i, i < ([2, 0, 0, 0, 0, 0, 0, 0] : Filter).length →
        f'.getD i 0 = ([2, 0, 0, 0, 0, 0, 0, 0] : Filter).getD i 0 |||
          ([1, 0, 0, 0, 0, 0, 0, 0] : Filter).getD i 0) ∧
      (∀ x, Filter.Test [2, 0, 0, 0, 0, 0, 0, 0] x = some true ∨
          Filter.Test [1, 0, 0, 0, 0, 0, 0, 0] x = some true →
        f'.Test x = some true)) :=
  ⟨⟨by decide, by decide⟩,
   unionWith_wordwise_or [2, 0, 0, 0, 0, 0, 0, 0] [1, 0, 0, 0, 0, 0, 0, 0]
     (by decide) (by decide)⟩

/-- C5: `UnionWith` panics exactly when the two filters' bit-lengths differ, and
a panicking call leaves the receiver unchanged (the length check precedes every
word write, so the state carried by the panic is the original filter). -/
theorem unionWith_panics_iff_length_ne (f g : Filter) :
    (f.UnionWith g = Except.error f ↔ f.Bits ≠ g.Bits) ∧
    ∀ e, f.UnionWith g = Except.error e → e = f := by
  have hiff : f.UnionWith g = Except.error f ↔ f.length ≠ g.length := by
    unfold Filter.UnionWith
    by_cases hl : f.length = g.length
    · rw [if_pos hl]
      simp [hl]
    · rw [if_neg hl]
      simp [hl]
  have hbits : f.Bits ≠ g.Bits ↔ f.length ≠ g.length := by
    unfold Filter.Bits
    constructor
    · intro h hl
      exact h (by rw [hl])
    · intro h hb
      exact h (by omega)
  refine ⟨hiff.trans hbits.symm, ?_⟩
  intro e he
  unfold Filter.UnionWith at he
  by_cases hl : f.length = g.length
  · rw [if_pos hl] at he
    exact Except.noConfusion he
  · rw [if_neg hl] at he
    exact (Except.error.inj he).symm

/-- Witness for C5: a 1-word filter united with an empty one faults and carries
the untouched receiver. -/
theorem unionWith_panics_iff_length_ne_witness :
    Filter.Bits [0] ≠ Filter.Bits ([] : Filter) ∧
    Filter.UnionWith [0] ([] : Filter) = Except.error [0] :=
  ⟨by decide, (unionWith_panics_iff_length_ne [0] []).1.mpr (by decide)⟩

/-! ## New -/

lemma int_tdiv_coe (a b : ℕ) : (a : ℤ).tdiv (b : ℤ) = ((a / b : ℕ) : ℤ) := rfl

/-- C8 (amended): for every `m ≥ 1` in the practical range (here `m ≤ 2 ^ 37`,
keeping the word count inside the 32-bit addressing domain), `New m` succeeds
and produces a nonempty filter, 8-word aligned, on which `Add`, `Test` and
`TestAndAdd` are total (no panic) for every key. -/
theorem new_pos_add_total (m : ℤ) (x : ℕ) (hm1 : 1 ≤ m) (hm2 : m ≤ 2 ^ 37) :
    ∃ f : Filter, New m = some f ∧ 0 < f.length ∧ 8 ∣ f.length ∧
      (f.Add x).isSome ∧ (f.Test x).isSome ∧ (f.TestAndAdd x).isSome := by
  obtain ⟨M, rfl⟩ : ∃ M : ℕ, m = (M : ℤ) := ⟨m.toNat, (Int.toNat_of_nonneg (by omega)).symm⟩
  have hM1 : 1 ≤ M := by exact_mod_cast hm1
  have hM2 : M ≤ 2 ^ 37 := by exact_mod_cast hm2
  have hwrap : wrap64 ((M : ℤ) + 511) = ((M + 511 : ℕ) : ℤ) := by
    unfold wrap64
    have h0 : (0 : ℤ) ≤ (M : ℤ) := Int.natCast_nonneg M
    rw [Int.emod_eq_of_lt (by omega) (by omega)]
    push_cast
    ring
  set W : ℕ := (M + 511) / 512 * 8 with hW
  have hcalc : (wrap64 ((M : ℤ) + 511)).tdiv 512 * 8 = (W : ℤ) := by
    rw [hwrap, show ((512 : ℤ)) = ((512 : ℕ) : ℤ) from by norm_cast, int_tdiv_coe]
    rw [hW]
    push_cast
    ring
  have hWpos : 0 < W := by
    have h1 : 1 ≤ (M + 511) / 512 := (Nat.one_le_div_iff (by norm_num)).2 (by omega)
    omega
  have hW8 : 8 ∣ W := ⟨(M + 511) / 512, by rw [hW]; ring⟩
  have hWU : W < U32 := by
    have hq : (M + 511) / 512 ≤ (2 ^ 37 + 511) / 512 := Nat.div_le_div_right (by omega)
    have hv : (2 ^ 37 + 511) / 512 = 2 ^ 28 := by norm_num
    rw [U32_eq]
    omega
  have hlen : (List.replicate W (0 : ℕ)).length = W := List.length_replicate W 0
  obtain ⟨ha, ht, hta⟩ := ops_isSome (List.replicate W 0) x
    (by rw [hlen]; exact hWpos) (by rw [hlen]; exact hW8) (by rw [hlen]; exact hWU)
  refine ⟨List.replicate W 0, ?_, by rw [hlen]; exact hWpos, by rw [hlen]; exact hW8,
    ha, ht, hta⟩
  simp only [New]
  rw [hcalc, if_neg (not_lt.2 (Int.natCast_nonneg W)), Int.toNat_natCast]

/-- Witness for C8's amended claim at `m = 512`, key 0. -/
theorem new_pos_add_total_witness :
    ((1 : ℤ) ≤ 512 ∧ (512 : ℤ) ≤ 2 ^ 37) ∧
    (∃ f : Filter, New 512 = some f ∧ 0 < f.length ∧ 8 ∣ f.length ∧
      (f.Add 0).isSome ∧ (f.Test 0).isSome ∧ (f.TestAndAdd 0).isSome) :=
  ⟨⟨by decide, by decide⟩, new_pos_add_total 512 0 (by decide) (by decide)⟩

/-- Counterexample for C8 as stated: `New 0` succeeds with a zero-word filter on
which `Add` panics (modelled as `none`: `uint32(len(f)) = 0` makes `sectors`
divide by zero); so totality over "`New m` for every integer `m`" fails.
Boundary of the constructor's own fault: truncated division keeps the word
count at 0 down to `m = -1022` (`New (-513)` still returns the empty filter),
and `New` itself panics (`make` with negative length) exactly from
`m ≤ -1023` on. -/
theorem new_zero_then_add_panics :
    New 0 = some ([] : Filter) ∧ Filter.Add ([] : Filter) 0 = none ∧
    New (-513) = some ([] : Filter) ∧ New (-1022) = some ([] : Filter) ∧
    New (-1023) = none := by
  refine ⟨by decide, rfl, by decide, by decide, by decide⟩

/-! ## Popcounts of the bit masks -/

lemma bitOffset_lt (h0 h1 i : ℕ) : bitOffset h0 h1 i < 64 :=
  Nat.mod_lt _ (by norm_num)

lemma popcount64_two_pow {a : ℕ} (h : a < 64) : popcount64 (2 ^ a) = 1 := by
  unfold popcount64
  have he : ((Finset.range 64).filter fun i => (2 ^ a).testBit i = true) = {a} := by
    ext i
    simp only [Finset.mem_filter, Finset.mem_range, Nat.testBit_two_pow,
      decide_eq_true_eq, Finset.mem_singleton]
    constructor
    · rintro ⟨hi, h2⟩
      exact h2.symm
    · rintro rfl
      exact ⟨h, rfl⟩
  rw [he, Finset.card_singleton]

lemma popcount64_le_64 (w : ℕ) : popcount64 w ≤ 64 := by
  unfold popcount64
  calc ((Finset.range 64).filter fun i => w.testBit i = true).card
      ≤ (Finset.range 64).card := Finset.card_le_card (Finset.filter_subset _ _)
    _ = 64 := Finset.card_range 64

lemma popcount64_lor_le (x y : ℕ) : popcount64 (x ||| y) ≤ popcount64 x + popcount64 y := by
  unfold popcount64
  have he : ((Finset.range 64).filter fun i => (x ||| y).testBit i = true) =
      ((Finset.range 64).filter fun i => x.testBit i = true) ∪
      ((Finset.range 64).filter fun i => y.testBit i = true) := by
    rw [← Finset.filter_or]
    apply Finset.filter_congr
    intro i _
    rw [Nat.testBit_lor]
    simp [Bool.or_eq_true]
  rw [he]
  exact Finset.card_union_le _ _

lemma popcount64_lor_pos {a : ℕ} (w : ℕ) (h : a < 64) :
    1 ≤ popcount64 (2 ^ a ||| w) := by
  unfold popcount64
  rw [Finset.one_le_card]
  refine ⟨a, ?_⟩
  simp only [Finset.mem_filter, Finset.mem_range]
  refine ⟨h, ?_⟩
  rw [Nat.testBit_lor, Nat.testBit_two_pow]
  simp

/-- C2 (amended): every bit mask produced by `bitmasks` has at least 1 and at
most 2 bits set (the two offsets may coincide), so an insertion designates
between 4 and 8 — not always exactly 8 — bit positions across the four words. -/
theorem bitmasks_popcount_bounds (h0 h1 : ℕ) :
    (1 ≤ popcount64 (bitmasks h0 h1).1 ∧ popcount64 (bitmasks h0 h1).1 ≤ 2) ∧
    (1 ≤ popcount64 (bitmasks h0 h1).2.1 ∧ popcount64 (bitmasks h0 h1).2.1 ≤ 2) ∧
    (1 ≤ popcount64 (bitmasks h0 h1).2.2.1 ∧ popcount64 (bitmasks h0 h1).2.2.1 ≤ 2) ∧
    (1 ≤ popcount64 (bitmasks h0 h1).2.2.2 ∧ popcount64 (bitmasks h0 h1).2.2.2 ≤ 2) ∧
    (4 ≤ popcount64 (bitmasks h0 h1).1 + popcount64 (bitmasks h0 h1).2.1 +
        popcount64 (bitmasks h0 h1).2.2.1 + popcount64 (bitmasks h0 h1).2.2.2 ∧
      popcount64 (bitmasks h0 h1).1 + popcount64 (bitmasks h0 h1).2.1 +
        popcount64 (bitmasks h0 h1).2.2.1 + popcount64 (bitmasks h0 h1).2.2.2 ≤ 8) := by
  simp only [bitmasks]
  have key : ∀ i j : ℕ,
      1 ≤ popcount64 (2 ^ bitOffset h0 h1 i ||| 2 ^ bitOffset h0 h1 j) ∧
      popcount64 (2 ^ bitOffset h0 h1 i ||| 2 ^ bitOffset h0 h1 j) ≤ 2 := by
    intro i j
    refine ⟨popcount64_lor_pos _ (bitOffset_lt h0 h1 i), ?_⟩
    calc popcount64 (2 ^ bitOffset h0 h1 i ||| 2 ^ bitOffset h0 h1 j)
        ≤ popcount64 (2 ^ bitOffset h0 h1 i) + popcount64 (2 ^ bitOffset h0 h1 j) :=
          popcount64_lor_le _ _
      _ = 2 := by
          rw [popcount64_two_pow (bitOffset_lt h0 h1 i),
            popcount64_two_pow (bitOffset_lt h0 h1 j)]
  obtain ⟨a1, b1⟩ := key 1 2
  obtain ⟨a2, b2⟩ := key 3 4
  obtain ⟨a3, b3⟩ := key 5 6
  obtain ⟨a4, b4⟩ := key 7 8
  exact ⟨⟨a1, b1⟩, ⟨a2, b2⟩, ⟨a3, b3⟩, ⟨a4, b4⟩, by omega, by omega⟩

/-- Counterexample for C2 as stated: at key 0 both halves are 0, all eight bit
offsets coincide at 0, each mask is `1` with a single bit set, and only 4 bit
positions are designated, not 8. -/
theorem bitmasks_not_always_two_bits :
    splithash 0 = (0, 0) ∧ bitmasks 0 0 = (1, 1, 1, 1) ∧
    popcount64 (bitmasks 0 0).1 = 1 ∧
    popcount64 (bitmasks 0 0).1 + popcount64 (bitmasks 0 0).2.1 +
      popcount64 (bitmasks 0 0).2.2.1 + popcount64 (bitmasks 0 0).2.2.2 = 4 := by
  refine ⟨by decide, by decide, by decide, by decide⟩

/-! ## Len: cardinality estimation -/

lemma ereal_sum_bot (l : List EReal) (h : (⊥ : EReal) ∈ l) : l.sum = ⊥ := by
  induction l with
  | nil => simp at h
  | cons a t ih =>
    rw [List.sum_cons]
    rcases List.mem_cons.1 h with h1 | h2
    · rw [← h1, EReal.bot_add]
    · rw [ih h2, EReal.add_bot]

lemma blockTerm_512 : blockTerm 512 = ⊥ := by
  unfold blockTerm goLog1p
  rw [if_pos (by norm_num : (512 : ℕ) ≠ 0)]
  rw [if_pos (by push_cast; norm_num : -((512 : ℕ) : ℝ) / 512 ≤ -1)]

lemma blockTerm_coe {o : ℕ} (h : o < 512) :
    blockTerm o = ((realBlockTerm o : ℝ) : EReal) := by
  unfold blockTerm realBlockTerm goLog1p
  by_cases h0 : o = 0
  · subst h0
    simp
  · rw [if_pos h0, if_pos h0, if_neg ?_]
    have ho : (o : ℝ) < 512 := by exact_mod_cast h
    have hdiv : (o : ℝ) / 512 < 1 := (div_lt_one (by norm_num)).2 ho
    rw [not_le, neg_div]
    linarith

lemma blocks_le : ∀ (f : Filter) (l : List ℕ), blocks f = some l → ∀ o ∈ l, o ≤ 512 := by
  intro f
  induction f using blocks.induct with
  | case1 =>
    intro l h o ho
    simp only [blocks] at h
    obtain rfl := Option.some.inj h
    simp at ho
  | case2 w0 w1 w2 w3 w4 w5 w6 w7 rest ih =>
    intro l h o ho
    simp only [blocks, Option.map_eq_some'] at h
    obtain ⟨t, ht, hcons⟩ := h
    subst hcons
    rcases List.mem_cons.1 ho with rfl | hmem
    · have c0 := popcount64_le_64 w0
      have c1 := popcount64_le_64 w1
      have c2 := popcount64_le_64 w2
      have c3 := popcount64_le_64 w3
      have c4 := popcount64_le_64 w4
      have c5 := popcount64_le_64 w5
      have c6 := popcount64_le_64 w6
      have c7 := popcount64_le_64 w7
      omega
    · exact ih t ht o hmem
  | case3 t hne1 hne2 =>
    intro l h o ho
    rw [blocks.eq_3 t hne1 hne2] at h
    exact Option.noConfusion h

lemma sum_coe_of (l : List ℕ) (h : ∀ o ∈ l, o < 512) :
    (l.map blockTerm).sum = (((l.map realBlockTerm).sum : ℝ) : EReal) := by
  induction l with
  | nil => simp
  | cons a t ih =>
    simp only [List.map_cons, List.sum_cons]
    rw [blockTerm_coe (h a (List.mem_cons_self a t)),
      ih (fun o ho => h o (List.mem_cons_of_mem a ho)), ← EReal.coe_add]

/-- C7: if any 512-bit block is fully saturated (per-block population count
512), then `Len` returns the sentinel `math.MaxInt` rather than a finite
estimate: the accumulated sum contains `Log1p(-1) = -Inf`. -/
theorem len_saturated_returns_maxInt (f : Filter) (l : List ℕ)
    (hb : blocks f = some l) (hs : 512 ∈ l) : f.Len = some goMaxInt := by
  have hbot : (l.map blockTerm).sum = ⊥ :=
    ereal_sum_bot _ (List.mem_map.2 ⟨512, hs, blockTerm_512⟩)
  simp only [Filter.Len, hb, Option.map_some']
  rw [hbot, if_pos rfl]

/-- Witness for C7: one fully saturated block (8 all-ones words). -/
theorem len_saturated_returns_maxInt_witness :
    (blocks (List.replicate 8 (2 ^ 64 - 1)) = some [512] ∧ (512 : ℕ) ∈ [512]) ∧
    Filter.Len (List.replicate 8 (2 ^ 64 - 1)) = some goMaxInt :=
  ⟨⟨by decide, by decide⟩,
   len_saturated_returns_maxInt (List.replicate 8 (2 ^ 64 - 1)) [512]
     (by decide) (by decide)⟩

/-- C9 (amended): when no block is saturated, `Len` returns
`trunc(-(512/8) * sum)` — Go's `int(...)` conversion truncates toward zero
(the spec's claim of rounding to nearest is what fails) — where `sum`
accumulates `ln(1 - ones/512)` over the blocks with nonzero counts. -/
theorem len_unsaturated_truncated_estimate (f : Filter) (l : List ℕ)
    (hb : blocks f = some l) (hns : ∀ o ∈ l, o ≠ 512) :
    f.Len = some (goTrunc (-(512 / 8 : ℝ) * (l.map realBlockTerm).sum)) := by
  have hlt : ∀ o ∈ l, o < 512 := fun o ho =>
    lt_of_le_of_ne (blocks_le f l hb o ho) (hns o ho)
  have hcoe := sum_coe_of l hlt
  simp only [Filter.Len, hb, Option.map_some']
  rw [hcoe, if_neg (EReal.coe_ne_bot _), EReal.toReal_coe]

/-- Witness for C9's amended claim: a single block with 20 bits set. -/
theorem len_unsaturated_truncated_estimate_witness :
    (blocks [2 ^ 20 - 1, 0, 0, 0, 0, 0, 0, 0] = some [20] ∧
      ∀ o ∈ ([20] : List ℕ), o ≠ 512) ∧
    Filter.Len [2 ^ 20 - 1, 0, 0, 0, 0, 0, 0, 0] =
      some (goTrunc (-(512 / 8 : ℝ) * (([20] : List ℕ).map realBlockTerm).sum)) :=
  ⟨⟨by decide, by decide⟩,
   len_unsaturated_truncated_estimate [2 ^ 20 - 1, 0, 0, 0, 0, 0, 0, 0] [20]
     (by decide) (by decide)⟩

/-- Counterexample for C9 as stated: on a single block with 20 set bits the
true estimate is `64 * ln(128/123) ≈ 2.55`; the code truncates to 2 while the
spec's `round` would give 3. -/
theorem len_truncates_not_rounds :
    Filter.Len [2 ^ 20 - 1, 0, 0, 0, 0, 0, 0, 0] = some 2 ∧
    lenSpecRound [2 ^ 20 - 1, 0, 0, 0, 0, 0, 0, 0] = some 3 := by
  have hb : blocks [2 ^ 20 - 1, 0, 0, 0, 0, 0, 0, 0] = some [20] := by decide
  have hsum : (([20] : List ℕ).map blockTerm).sum =
      ((Real.log (1 + -((20 : ℕ) : ℝ) / 512) : ℝ) : EReal) := by
    simp only [List.map_cons, List.map_nil, List.sum_cons, List.sum_nil, add_zero]
    rw [blockTerm_coe (by norm_num)]
    unfold realBlockTerm
    rw [if_pos (by norm_num)]
  have hM0 : 0 < Real.log (128 / 123 : ℝ) := Real.log_pos (by norm_num)
  have hMup : Real.log (128 / 123 : ℝ) ≤ 5 / 123 := by
    have h := Real.log_le_sub_one_of_pos (x := (128 / 123 : ℝ)) (by norm_num)
    linarith
  have hMlo : 5 / 128 < Real.log (128 / 123 : ℝ) := by
    have hne : -Real.log (128 / 123 : ℝ) ≠ 0 := neg_ne_zero.2 (ne_of_gt hM0)
    have h2 := Real.add_one_lt_exp hne
    rw [Real.exp_neg, Real.exp_log (by norm_num : (0 : ℝ) < 128 / 123)] at h2
    have hinv : ((128 : ℝ) / 123)⁻¹ = 123 / 128 := by norm_num
    rw [hinv] at h2
    linarith
  have hlogeq : Real.log (1 + -((20 : ℕ) : ℝ) / 512) = -Real.log (128 / 123 : ℝ) := by
    rw [show (1 + -((20 : ℕ) : ℝ) / 512) = ((128 : ℝ) / 123)⁻¹ from by push_cast; norm_num]
    exact Real.log_inv _
  have h64 : -(512 / 8 : ℝ) * (-Real.log (128 / 123 : ℝ)) =
      64 * Real.log (128 / 123 : ℝ) := by ring_nf
  constructor
  · simp only [Filter.Len, hb, Option.map_some']
    rw [hsum, if_neg (EReal.coe_ne_bot _), EReal.toReal_coe]
    refine congrArg some ?_
    rw [hlogeq, h64]
    unfold goTrunc
    rw [if_pos (by linarith : (0 : ℝ) ≤ 64 * Real.log (128 / 123 : ℝ))]
    rw [Int.floor_eq_iff]
    constructor
    · push_cast
      linarith
    · push_cast
      linarith
  · simp only [lenSpecRound, hb, Option.map_some']
    rw [hsum, if_neg (EReal.coe_ne_bot _), EReal.toReal_coe]
    refine congrArg some ?_
    rw [hlogeq, h64, round_eq, Int.floor_eq_iff]
    constructor
    · push_cast
      linarith
    · push_cast
      linarith

end Bloom
